import Mathlib

/-!
Verification of the UX-Audio-Router real-time routing and synchronization
engine (js/audio.js, js/ipc.js, js/store.js) against its specification.

The JavaScript source is shallowly embedded: each class becomes a Lean
structure, each method a Lean function on that structure; times, gains and
sample values are rationals; byte buffers are lists of naturals.
-/

namespace UXAR

/-! ## Jitter ring buffer (js/audio.js, class RingBuffer)

`buffers` models the per-channel `Float32Array`s as total maps from
channel number and index to a sample; the constructor fills them with a
zero sample (`Float32Array` zero-initialises).  The generic sample type
`α` reflects that the buffer only ever copies samples, never computes
with them. -/

structure RingBuffer (α : Type) where
  size : ℕ
  channels : ℕ
  buffers : ℕ → ℕ → α
  writePtr : ℕ
  readPtr : ℕ
  available : ℕ

namespace RingBuffer

/-- `new RingBuffer(size, channels)`: cursors and `available` start at 0,
sample storage is zero-filled (`z` is the zero sample). -/
def new (α : Type) (size channels : ℕ) (z : α) : RingBuffer α :=
  ⟨size, channels, fun _ _ => z, 0, 0, 0⟩

/-- One iteration of the outer loop of `push`: write the frame's first
`min(this.channels, inputChannels)` samples at the write cursor, advance
the write cursor modulo `size`, then either grow `available` or (when
full) advance the read cursor — the overwrite-oldest policy. -/
def pushFrame (rb : RingBuffer α) (inputChannels : ℕ) (frame : ℕ → α) :
    RingBuffer α :=
  let copyCh := min rb.channels inputChannels
  { rb with
    buffers := fun ch idx =>
      if ch < copyCh ∧ idx = rb.writePtr then frame ch else rb.buffers ch idx
    writePtr := (rb.writePtr + 1) % rb.size
    available := if rb.available < rb.size then rb.available + 1 else rb.available
    readPtr := if rb.available < rb.size then rb.readPtr
               else (rb.readPtr + 1) % rb.size }

/-- The deinterleaved frames of `floatArray`: frame `i`, channel `ch` is
`floatArray[i * inputChannels + ch]`.  The JS loop bound
`floatArray.length / inputChannels` is a float, so the loop body runs
`⌈length / inputChannels⌉` times; an out-of-range read yields the
fill sample `z` (JS: `undefined`, stored as NaN). -/
def framesOf (floatArray : List α) (inputChannels : ℕ) (z : α) :
    List (ℕ → α) :=
  (List.range ((floatArray.length + inputChannels - 1) / inputChannels)).map
    (fun i ch => floatArray.getD (i * inputChannels + ch) z)

/-- `push(floatArray, inputChannels)`: fold `pushFrame` over the
deinterleaved frames (`z` is the out-of-range fill sample). -/
def push (rb : RingBuffer α) (floatArray : List α) (inputChannels : ℕ)
    (z : α) : RingBuffer α :=
  (framesOf floatArray inputChannels z).foldl
    (fun s f => pushFrame s inputChannels f) rb

/-- One step of the read-cursor advance `readPtr = (readPtr + 1) % size`. -/
def stepPtr (size p : ℕ) : ℕ := (p + 1) % size

/-- `pop(outputBuffers, count)`: `none` models `return false` (the guard
runs before any copying, so nothing is touched); `some` returns the
channel-major copied samples together with the updated buffer.  The read
index of frame `i` is the read cursor advanced `i` times. -/
def pop (rb : RingBuffer α) (count : ℕ) :
    Option (List (List α) × RingBuffer α) :=
  if rb.available < count then none
  else some
    ((List.range rb.channels).map (fun ch =>
        (List.range count).map (fun i =>
          rb.buffers ch ((stepPtr rb.size)^[i] rb.readPtr))),
     { rb with
        readPtr := (stepPtr rb.size)^[count] rb.readPtr
        available := rb.available - count })

/-- `clear()`: reset both cursors and `available` to zero. -/
def clear (rb : RingBuffer α) : RingBuffer α :=
  { rb with readPtr := 0, writePtr := 0, available := 0 }

/-- Structural well-formedness maintained by every operation from a fresh
buffer: cursors reduced modulo a positive capacity, `available` within
capacity, and the write cursor determined by read cursor and fill level. -/
def wf (rb : RingBuffer α) : Prop :=
  0 < rb.size ∧ rb.readPtr < rb.size ∧ rb.available ≤ rb.size ∧
    rb.writePtr = (rb.readPtr + rb.available) % rb.size

/-- The sample of the `j`-th oldest stored frame on channel `ch`. -/
def sampleAt (rb : RingBuffer α) (j ch : ℕ) : α :=
  rb.buffers ch ((rb.readPtr + j) % rb.size)

/-- Channel `ch` of the logical FIFO contents, oldest first. -/
def contentsCh (rb : RingBuffer α) (ch : ℕ) : List α :=
  (List.range rb.available).map (fun j => rb.sampleAt j ch)

/-- Pushing a list of frames one by one; `push` folds into this. -/
def pushFrames (rb : RingBuffer α) (inputChannels : ℕ) :
    List (ℕ → α) → RingBuffer α
  | [] => rb
  | f :: fs => pushFrames (pushFrame rb inputChannels f) inputChannels fs

/-- The last `n` elements of a list (all of it when shorter than `n`). -/
def lastN (n : ℕ) (l : List α) : List α := (l.reverse.take n).reverse

/-- An arbitrary operation on the ring buffer, as issued by the engine:
`processDirectAudio` pushes, `scheduleAudio` pops, reconnection clears.
A failed pop (`pop` returned `false`) leaves the buffer untouched. -/
inductive RBOp (α : Type) where
  | push (arr : List α) (ic : ℕ)
  | pop (count : ℕ)
  | clear

def applyOp (z : α) (rb : RingBuffer α) : RBOp α → RingBuffer α
  | .push arr ic => rb.push arr ic z
  | .pop count =>
      match rb.pop count with
      | none => rb
      | some p => p.2
  | .clear => rb.clear

def applyOps (z : α) (rb : RingBuffer α) : List (RBOp α) → RingBuffer α
  | [] => rb
  | op :: ops => applyOps z (applyOp z rb op) ops

end RingBuffer

-- ===== scheduler, store, gain-layer and decoder definitions =====

/-! ## Drift-correcting scheduler (js/audio.js)

Two scheduling paths exist in the source: the ring-buffer engine's
`scheduleAudio` (runs every 20 ms, pops 1024-frame chunks) and the legacy
revision's `processDirectAudio`, which scheduled each received chunk
directly and carried the original underrun/overrun correction block. -/

/-- `Math.max(store.data.directBuffer || 0.1, 0.05)`: the user buffer
time in seconds; a falsy stored value (0) falls back to 0.1, and 0.05 is
the enforced minimum.  Used identically by both scheduling paths. -/
def userBufferSec (directBuffer : ℚ) : ℚ :=
  max (if directBuffer = 0 then 1/10 else directBuffer) (1/20)

/-- `buffer.duration` of one scheduled chunk: CHUNK_SIZE = 1024 frames at
the strip context rate 48000 Hz. -/
def chunkDuration : ℚ := 1024 / 48000

/-- One per-strip iteration of the `while` body of `scheduleAudio`: `ub`
is the pass-level `userBufferSec` value (computed once per pass), `now`
is `ctx.currentTime`, `next` is `nodes.nextAudioTime` and `buf` is the
stored configuration `store.data.directBuffer`.  Returns the start time
passed to `src.start`, the updated cursor, and the updated configuration
value.  The underrun branch resyncs the cursor to `now + ub` and, while
the stored setting is below 0.5, bumps it by 0.001. -/
def scheduleStep (ub now next buf : ℚ) : ℚ × ℚ × ℚ :=
  let corrected := if next < now then now + ub else next
  let buf1 := if next < now then (if buf < 1/2 then buf + 1/1000 else buf)
              else buf
  (corrected, corrected + chunkDuration, buf1)

/-- The drift-correction block of the legacy `processDirectAudio`
scheduling path: underrun resync to `now + userBuffer + 0.05` (the 50 ms
safety margin), then overrun reset to `now + userBuffer` when the cursor
exceeds `now + (userBuffer * 3 + 0.2)`.  Returns the start time passed
to `src.start` and the advanced cursor (`chunkDur` is the scheduled
buffer's duration). -/
def directDriftStep (now next buf chunkDur : ℚ) : ℚ × ℚ :=
  let ub := userBufferSec buf
  let resetThreshold := ub * 3 + 1/5
  let n1 := if next < now then now + ub + 1/20 else next
  let n2 := if n1 > now + resetThreshold then now + ub else n1
  (n2, n2 + chunkDur)

/-! ## Routing matrix store (js/store.js, latest revision) and the gain
automation layer (`AudioEngine.updateAllGains`).

Fields not touched by any verified claim (device handles, EQ, compressor
and delay settings) are omitted from the records; all remaining fields
follow the store's `data` layout. -/

structure InputData where
  id : ℕ
  volume : ℚ
  isMuted : Bool
  routing : List ℕ

structure OutputData where
  id : ℕ
  volume : ℚ
  isMuted : Bool

structure StoreState where
  inputs : List InputData
  outputs : List OutputData
  directGain : ℚ
  directMuted : Bool
  directRoutingSet : Finset ℕ
  directBuffer : ℚ

/-- Hardware-input target gain computed by `updateAllGains` for one
(input, output) pair: `isRouted ? inputData.volume : 0`.  The source
reads only `routing` and `volume`; the input's stored `isMuted` flag is
not consulted. -/
def hwGainTarget (input : InputData) (outputId : ℕ) : ℚ :=
  if outputId ∈ input.routing then input.volume else 0

/-- Direct-path target gain computed by `updateAllGains`:
`store.data.directGain * dirRouteMult * dirMuteMult`. -/
def directGainTarget (s : StoreState) (outputId : ℕ) : ℚ :=
  s.directGain * (if outputId ∈ s.directRoutingSet then 1 else 0)
    * (if s.directMuted then 0 else 1)

/-- The per-pair hardware target gain as the specification words it —
`routed ? (muted ? 0 : volume) : 0` — kept separate so the claimed
formula can be compared with the one the source computes. -/
def hwGainTargetSpec (input : InputData) (outputId : ℕ) : ℚ :=
  if outputId ∈ input.routing then
    (if input.isMuted then 0 else input.volume) else 0

/-- The `while (existingIds.has(id)) id++` loop of `getAvailableId`,
with explicit fuel; `ids.length + 1` iterations always suffice because
some id in 1..length+1 is free. -/
def firstFreeFrom (ids : List ℕ) : ℕ → ℕ → ℕ
  | 0, cand => cand
  | fuel + 1, cand =>
      if cand ∈ ids then firstFreeFrom ids fuel (cand + 1) else cand

/-- `Store.getAvailableId(list)`: the smallest positive integer not among
the ids of the given records (the caller passes the id list). -/
def getAvailableId (ids : List ℕ) : ℕ := firstFreeFrom ids (ids.length + 1) 1

instance : DecidableRel (fun a b : OutputData => a.id ≤ b.id) :=
  fun a b => Nat.decLe a.id b.id

instance : DecidableRel (fun a b : InputData => a.id ≤ b.id) :=
  fun a b => Nat.decLe a.id b.id

/-- The `sort((a, b) => a.id - b.id)` call: an id-ordered permutation. -/
def sortOutputsById (l : List OutputData) : List OutputData :=
  List.insertionSort (fun a b => a.id ≤ b.id) l

def sortInputsById (l : List InputData) : List InputData :=
  List.insertionSort (fun a b => a.id ≤ b.id) l

/-- `Store.addInput()`: allocate the smallest free id, push the default
record, keep the list sorted by id; returns the new id. -/
def Store.addInput (s : StoreState) : StoreState × ℕ :=
  let id := getAvailableId (s.inputs.map (fun i => i.id))
  let inputs := sortInputsById
    (s.inputs ++ [{ id := id, volume := 1, isMuted := false, routing := [] }])
  ({ s with inputs := inputs }, id)

/-- `Store.addOutput()`: allocate the smallest free id, push the default
record, keep the list sorted by id; returns the new id. -/
def Store.addOutput (s : StoreState) : StoreState × ℕ :=
  let id := getAvailableId (s.outputs.map (fun o => o.id))
  let outputs := sortOutputsById
    (s.outputs ++ [{ id := id, volume := 1, isMuted := false }])
  ({ s with outputs := outputs }, id)

/-- `Store.removeOutput(id)`: when a matching output exists, splice out
the first match, drop the id from the direct-routing set, and filter it
out of every input's routing list; otherwise do nothing. -/
def Store.removeOutput (s : StoreState) (id : ℕ) : StoreState :=
  if s.outputs.any (fun o => o.id == id) then
    { s with
      outputs := s.outputs.eraseP (fun o => o.id == id)
      directRoutingSet := s.directRoutingSet.erase id
      inputs := s.inputs.map (fun inp =>
        { inp with routing := inp.routing.filter (fun r => r != id) }) }
  else s

/-- The ids of the live outputs. -/
def outIds (s : StoreState) : List ℕ := s.outputs.map (fun o => o.id)

/-- The data-model invariant: every output id referenced by the direct
routing set or an input's routing set belongs to a live output. -/
def routeTargetsLive (s : StoreState) : Prop :=
  (∀ j ∈ s.directRoutingSet, ∃ o ∈ s.outputs, o.id = j) ∧
  (∀ inp ∈ s.inputs, ∀ j ∈ inp.routing, ∃ o ∈ s.outputs, o.id = j)

/-- A user action on the output list, for arbitrary-sequence claims. -/
inductive OutOp where
  | add
  | remove (id : ℕ)

def applyOutOp (s : StoreState) : OutOp → StoreState
  | .add => (Store.addOutput s).1
  | .remove id => Store.removeOutput s id

def applyOutOps (s : StoreState) : List OutOp → StoreState
  | [] => s
  | op :: ops => applyOutOps (applyOutOp s op) ops

/-! ## Ingestion protocol decoder (js/ipc.js, class DirectServer)

Bytes are naturals (0..255).  `streamed` records the bytes handed to
`audio.processDirectAudio` — the decoded audio.  `destroyed` records a
`socket.destroy()` call.  Status callbacks (`reportStatus`) are external
and not modelled. -/

structure ServerState where
  isHeaderReceived : Bool
  headerBuffer : List ℕ
  sampleRate : ℕ
  destroyed : Bool
  streamed : List ℕ

/-- Connection state right after `createServer`'s callback reset it:
header not received, empty accumulation buffer; the constructor's
default sample rate is 44100. -/
def connInit : ServerState :=
  { isHeaderReceived := false, headerBuffer := [], sampleRate := 44100,
    destroyed := false, streamed := [] }

/-- The 8-byte alignment of `handleAudioData`: keep the largest multiple
of 8 bytes, discarding any trailing partial frame. -/
def aligned8 (buffer : List ℕ) : List ℕ := buffer.take (buffer.length / 8 * 8)

/-- `handleAudioData(buffer)`: align to whole frames, return early when
nothing is left, otherwise hand the bytes to `processDirectAudio`. -/
def handleAudioData (st : ServerState) (buffer : List ℕ) : ServerState :=
  let b := aligned8 buffer
  if b.length = 0 then st else { st with streamed := st.streamed ++ b }

/-- The ASCII bytes of the protocol identifier "UXD1". -/
def magicUXD1 : List ℕ := [85, 88, 68, 49]

/-- `buffer.readUInt32LE(off)`: little-endian unsigned 32-bit read. -/
def readUInt32LE (l : List ℕ) (off : ℕ) : ℕ :=
  l.getD off 0 + l.getD (off + 1) 0 * 256 + l.getD (off + 2) 0 * 65536
    + l.getD (off + 3) 0 * 16777216

/-- `handleHandshake(buffer, socket)`: append to the accumulation buffer,
keep only the last 1024 bytes, and once at least 8 bytes are available
check the 4-byte magic: on success publish the sample rate, enter the
streaming state and hand any bytes beyond the header to
`handleAudioData`; on mismatch destroy the socket.  In both of those
branches the accumulation buffer is reset to empty. -/
def handleHandshake (st : ServerState) (buffer : List ℕ) : ServerState :=
  let hb0 := st.headerBuffer ++ buffer
  let hb := if 1024 < hb0.length then hb0.drop (hb0.length - 1024) else hb0
  if 8 ≤ hb.length then
    if hb.take 4 = magicUXD1 then
      let st1 := { st with sampleRate := readUInt32LE hb 4,
                           isHeaderReceived := true }
      let remaining := hb.drop 8
      let st2 := if 0 < remaining.length then handleAudioData st1 remaining
                 else st1
      { st2 with headerBuffer := [] }
    else { st with headerBuffer := [], destroyed := true }
  else { st with headerBuffer := hb }

/-- A whole-array push sequence: `processDirectAudio` calls arriving in
order, each pushing one interleaved array with channel count `ic`. -/
def pushSeq (z : α) (ic : ℕ) (rb : RingBuffer α) (arrs : List (List α)) :
    RingBuffer α :=
  arrs.foldl (fun s arr => s.push arr ic z) rb

/-- All frames carried by a sequence of pushed arrays, in arrival order. -/
def framesSeq (z : α) (ic : ℕ) (arrs : List (List α)) : List (ℕ → α) :=
  (arrs.map (fun arr => RingBuffer.framesOf arr ic z)).flatten

-- ===== theorems =====

namespace RingBuffer

theorem lastN_of_le {n : ℕ} {l : List α} (h : l.length ≤ n) : lastN n l = l := by
  unfold lastN
  rw [List.take_of_length_le (by simpa using h), List.reverse_reverse]

theorem take_append_take (n : ℕ) (a b : List α) :
    (a ++ b.take n).take n = (a ++ b).take n := by
  rw [List.take_append_eq_append_take, List.take_append_eq_append_take,
    List.take_take, Nat.min_eq_left (Nat.sub_le n a.length)]

theorem lastN_lastN_append (n : ℕ) (x y : List α) :
    lastN n (lastN n x ++ y) = lastN n (x ++ y) := by
  unfold lastN
  rw [List.reverse_append, List.reverse_reverse, List.reverse_append,
    take_append_take]

theorem lastN_append_of_le {n : ℕ} {y : List α} (x : List α)
    (h : n ≤ y.length) : lastN n (x ++ y) = lastN n y := by
  unfold lastN
  rw [List.reverse_append, List.take_append_of_le_length (by simpa using h)]

theorem push_eq_pushFrames (rb : RingBuffer α) (arr : List α) (ic : ℕ) (z : α) :
    rb.push arr ic z = pushFrames rb ic (framesOf arr ic z) := by
  unfold push
  generalize framesOf arr ic z = F
  induction F generalizing rb with
  | nil => rfl
  | cons f fs ih => simpa [pushFrames] using ih (pushFrame rb ic f)

theorem pushFrames_append (rb : RingBuffer α) (ic : ℕ) (F G : List (ℕ → α)) :
    pushFrames rb ic (F ++ G) = pushFrames (pushFrames rb ic F) ic G := by
  induction F generalizing rb with
  | nil => rfl
  | cons f fs ih => simpa [pushFrames] using ih (pushFrame rb ic f)

theorem pushFrame_size (rb : RingBuffer α) (ic : ℕ) (f : ℕ → α) :
    (pushFrame rb ic f).size = rb.size := rfl

theorem pushFrame_channels (rb : RingBuffer α) (ic : ℕ) (f : ℕ → α) :
    (pushFrame rb ic f).channels = rb.channels := rfl

theorem pushFrames_size (rb : RingBuffer α) (ic : ℕ) (F : List (ℕ → α)) :
    (pushFrames rb ic F).size = rb.size := by
  induction F generalizing rb with
  | nil => rfl
  | cons f fs ih => simpa [pushFrames] using ih (pushFrame rb ic f)

theorem pushFrames_channels (rb : RingBuffer α) (ic : ℕ) (F : List (ℕ → α)) :
    (pushFrames rb ic F).channels = rb.channels := by
  induction F generalizing rb with
  | nil => rfl
  | cons f fs ih => simpa [pushFrames] using ih (pushFrame rb ic f)

theorem wf_new (α : Type) (size channels : ℕ) (z : α) (h : 0 < size) :
    (new α size channels z).wf := by
  refine ⟨h, h, Nat.zero_le _, ?_⟩
  simp [new]

theorem wf_clear {rb : RingBuffer α} (h : rb.wf) : rb.clear.wf := by
  obtain ⟨hs, _, _, _⟩ := h
  refine ⟨hs, hs, Nat.zero_le _, ?_⟩
  simp [clear]

theorem wf_pushFrame {rb : RingBuffer α} (ic : ℕ) (f : ℕ → α) (h : rb.wf) :
    (pushFrame rb ic f).wf := by
  obtain ⟨hs, hr, ha, hw⟩ := h
  by_cases hlt : rb.available < rb.size
  · refine ⟨hs, ?_, ?_, ?_⟩
    · simpa [pushFrame, hlt] using hr
    · simp only [pushFrame, if_pos hlt]
      exact hlt
    · simp only [pushFrame, if_pos hlt]
      rw [hw, Nat.mod_add_mod, Nat.add_assoc]
  · refine ⟨hs, ?_, ?_, ?_⟩
    · simp only [pushFrame, if_neg hlt]
      exact Nat.mod_lt _ hs
    · simpa [pushFrame, hlt] using ha
    · have have_eq : rb.available = rb.size := le_antisymm ha (not_lt.mp hlt)
      simp only [pushFrame, if_neg hlt]
      rw [hw, Nat.mod_add_mod, Nat.mod_add_mod, have_eq]
      congr 1
      omega


theorem add_mod_ne {s a b : ℕ} (r : ℕ) (ha : a < s) (hb : b < s) (hab : a ≠ b) :
    (r + a) % s ≠ (r + b) % s := by
  intro h
  have hmod : a ≡ b [MOD s] := Nat.ModEq.add_left_cancel' r h
  rw [Nat.ModEq, Nat.mod_eq_of_lt ha, Nat.mod_eq_of_lt hb] at hmod
  exact hab hmod

theorem sampleAt_pushFrame_old {rb : RingBuffer α} {ic j ch : ℕ} {f : ℕ → α}
    (h : rb.wf) (hlt : rb.available < rb.size) (hj : j < rb.available) :
    (pushFrame rb ic f).sampleAt j ch = rb.sampleAt j ch := by
  obtain ⟨hs, hr, ha, hw⟩ := h
  have hne : (rb.readPtr + j) % rb.size ≠ rb.writePtr := by
    rw [hw]
    exact add_mod_ne rb.readPtr (lt_trans hj hlt) hlt (Nat.ne_of_lt hj)
  simp [sampleAt, pushFrame, hlt, hne]

theorem sampleAt_pushFrame_new {rb : RingBuffer α} {ic ch : ℕ} {f : ℕ → α}
    (h : rb.wf) (hlt : rb.available < rb.size) (hch : ch < min rb.channels ic) :
    (pushFrame rb ic f).sampleAt rb.available ch = f ch := by
  obtain ⟨hs, hr, ha, hw⟩ := h
  have hidx : (rb.readPtr + rb.available) % rb.size = rb.writePtr := hw.symm
  obtain ⟨hch1, hch2⟩ := lt_min_iff.mp hch
  simp [sampleAt, pushFrame, hlt, hidx, hch1, hch2]

theorem add_mod_ne_self {s r k : ℕ} (hr : r < s) (hk1 : 0 < k) (hk2 : k < s) :
    (r + k) % s ≠ r := by
  intro h
  have h0 : (r + k) % s = (r + 0) % s := by
    rw [h, Nat.add_zero, Nat.mod_eq_of_lt hr]
  exact add_mod_ne r hk2 (lt_of_le_of_lt (Nat.zero_le _) hr)
    (Nat.pos_iff_ne_zero.mp hk1) h0

theorem sampleAt_pushFrame_full_shift {rb : RingBuffer α} {ic j ch : ℕ}
    {f : ℕ → α} (h : rb.wf) (hfull : rb.available = rb.size)
    (hj : j + 1 < rb.size) :
    (pushFrame rb ic f).sampleAt j ch = rb.sampleAt (j + 1) ch := by
  obtain ⟨hs, hr, ha, hw⟩ := h
  have hnl : ¬rb.available < rb.size := by omega
  have hwp : rb.writePtr = rb.readPtr := by
    rw [hw, hfull, Nat.add_mod_right, Nat.mod_eq_of_lt hr]
  have hidx : ((rb.readPtr + 1) % rb.size + j) % rb.size
      = (rb.readPtr + (1 + j)) % rb.size := by
    rw [Nat.mod_add_mod, Nat.add_assoc]
  have hne : (rb.readPtr + (1 + j)) % rb.size ≠ rb.writePtr := by
    rw [hwp]
    exact add_mod_ne_self hr (by omega) (by omega)
  simp only [sampleAt, pushFrame, if_neg hnl]
  rw [hidx]
  simp only [hne, and_false, if_false]
  rw [Nat.add_comm 1 j]

theorem sampleAt_pushFrame_full_new {rb : RingBuffer α} {ic ch : ℕ}
    {f : ℕ → α} (h : rb.wf) (hfull : rb.available = rb.size)
    (hch : ch < min rb.channels ic) :
    (pushFrame rb ic f).sampleAt (rb.size - 1) ch = f ch := by
  obtain ⟨hs, hr, ha, hw⟩ := h
  have hnl : ¬rb.available < rb.size := by omega
  have hwp : rb.writePtr = rb.readPtr := by
    rw [hw, hfull, Nat.add_mod_right, Nat.mod_eq_of_lt hr]
  have hidx : ((rb.readPtr + 1) % rb.size + (rb.size - 1)) % rb.size
      = rb.writePtr := by
    rw [Nat.mod_add_mod, hwp]
    have heq : rb.readPtr + 1 + (rb.size - 1) = rb.readPtr + rb.size := by omega
    rw [heq, Nat.add_mod_right, Nat.mod_eq_of_lt hr]
  simp only [sampleAt, pushFrame, if_neg hnl]
  rw [hidx]
  simp [hch]

theorem length_contentsCh (rb : RingBuffer α) (ch : ℕ) :
    (rb.contentsCh ch).length = rb.available := by
  simp [contentsCh]

theorem available_pushFrame {rb : RingBuffer α} (ic : ℕ) (f : ℕ → α)
    (h : rb.available ≤ rb.size) :
    (pushFrame rb ic f).available = min rb.size (rb.available + 1) := by
  by_cases hlt : rb.available < rb.size
  · simp only [pushFrame, if_pos hlt]
    omega
  · simp only [pushFrame, if_neg hlt]
    omega

theorem contentsCh_pushFrame {rb : RingBuffer α} {ic ch : ℕ} (f : ℕ → α)
    (h : rb.wf) (hch : ch < min rb.channels ic) :
    (pushFrame rb ic f).contentsCh ch
      = lastN rb.size (rb.contentsCh ch ++ [f ch]) := by
  have hwf := h
  obtain ⟨hs, hr, ha, hw⟩ := hwf
  by_cases hlt : rb.available < rb.size
  · have havail : (pushFrame rb ic f).available = rb.available + 1 := by
      simp [pushFrame, hlt]
    have hlen : (rb.contentsCh ch ++ [f ch]).length ≤ rb.size := by
      rw [List.length_append, length_contentsCh]
      simpa using hlt
    rw [lastN_of_le hlen]
    unfold contentsCh
    rw [havail, List.range_succ, List.map_append]
    congr 1
    · exact List.map_congr_left fun j hj =>
        sampleAt_pushFrame_old h hlt (List.mem_range.mp hj)
    · simpa using sampleAt_pushFrame_new h hlt hch
  · have hfull : rb.available = rb.size := le_antisymm ha (not_lt.mp hlt)
    obtain ⟨m, hm⟩ := Nat.exists_eq_succ_of_ne_zero (Nat.pos_iff_ne_zero.mp hs)
    have havail : (pushFrame rb ic f).available = rb.size := by
      simp [pushFrame, hlt, hfull]
    have hcon : rb.contentsCh ch
        = rb.sampleAt 0 ch :: (List.range m).map (fun j => rb.sampleAt (j+1) ch) := by
      unfold contentsCh
      rw [hfull, hm, List.range_succ_eq_map, List.map_cons, List.map_map]
      rfl
    have hlast : lastN rb.size (rb.contentsCh ch ++ [f ch])
        = (List.range m).map (fun j => rb.sampleAt (j+1) ch) ++ [f ch] := by
      rw [hcon, hm]
      have hlen2 : ((List.range m).map (fun j => rb.sampleAt (j+1) ch) ++ [f ch]).length
          ≤ m + 1 := by simp
      calc lastN (m+1)
            (rb.sampleAt 0 ch :: ((List.range m).map (fun j => rb.sampleAt (j+1) ch) ++ [f ch]))
          = lastN (m+1)
            ([rb.sampleAt 0 ch] ++ ((List.range m).map (fun j => rb.sampleAt (j+1) ch) ++ [f ch])) := rfl
        _ = lastN (m+1) ((List.range m).map (fun j => rb.sampleAt (j+1) ch) ++ [f ch]) :=
            lastN_append_of_le _ (by simp)
        _ = (List.range m).map (fun j => rb.sampleAt (j+1) ch) ++ [f ch] :=
            lastN_of_le (by simp)
    rw [hlast]
    unfold contentsCh
    rw [havail, hm, List.range_succ, List.map_append]
    congr 1
    · exact List.map_congr_left fun j hj => by
        have hj2 : j + 1 < rb.size := by
          have := List.mem_range.mp hj
          omega
        exact sampleAt_pushFrame_full_shift h hfull hj2
    · have hmm : m = rb.size - 1 := by omega
      rw [hmm]
      simpa using sampleAt_pushFrame_full_new h hfull hch

theorem wf_pushFrames {rb : RingBuffer α} (ic : ℕ) (F : List (ℕ → α))
    (h : rb.wf) : (pushFrames rb ic F).wf := by
  induction F generalizing rb with
  | nil => exact h
  | cons f fs ih => exact ih (wf_pushFrame ic f h)

theorem available_pushFrames {rb : RingBuffer α} (ic : ℕ) (F : List (ℕ → α))
    (h : rb.available ≤ rb.size) :
    (pushFrames rb ic F).available = min rb.size (rb.available + F.length) := by
  induction F generalizing rb with
  | nil =>
    simp only [pushFrames, List.length_nil, Nat.add_zero]
    omega
  | cons f fs ih =>
    have h1 : (pushFrame rb ic f).available ≤ (pushFrame rb ic f).size := by
      rw [available_pushFrame ic f h, pushFrame_size]
      omega
    have h2 := ih h1
    simp only [pushFrames]
    rw [h2, pushFrame_size, available_pushFrame ic f h, List.length_cons]
    omega

theorem contentsCh_pushFrames {rb : RingBuffer α} {ic ch : ℕ}
    (F : List (ℕ → α)) (h : rb.wf) (hch : ch < min rb.channels ic) :
    (pushFrames rb ic F).contentsCh ch
      = lastN rb.size (rb.contentsCh ch ++ F.map (fun f => f ch)) := by
  induction F generalizing rb with
  | nil =>
    rw [pushFrames, List.map_nil, List.append_nil]
    exact (lastN_of_le (by rw [length_contentsCh]; exact h.2.2.1)).symm
  | cons f fs ih =>
    have h1 := wf_pushFrame ic f h
    have hch1 : ch < min (pushFrame rb ic f).channels ic := by
      rw [pushFrame_channels]
      exact hch
    rw [pushFrames, ih h1 hch1, pushFrame_size, contentsCh_pushFrame f h hch,
      lastN_lastN_append, List.append_assoc, List.map_cons]
    rfl

theorem stepPtr_iterate {s : ℕ} (hs : 0 < s) (n p : ℕ) (hp : p < s) :
    (stepPtr s)^[n] p = (p + n) % s := by
  induction n generalizing p with
  | zero =>
    simpa using (Nat.mod_eq_of_lt hp).symm
  | succ n ih =>
    rw [Function.iterate_succ_apply, show stepPtr s p = (p + 1) % s from rfl,
      ih ((p + 1) % s) (Nat.mod_lt _ hs), Nat.mod_add_mod]
    congr 1
    omega

theorem pop_eq_none {rb : RingBuffer α} {count : ℕ}
    (h : rb.available < count) : rb.pop count = none := by
  simp [pop, h]

theorem pop_eq_some {rb : RingBuffer α} {count : ℕ} (h : rb.wf)
    (hc : count ≤ rb.available) :
    rb.pop count = some
      ((List.range rb.channels).map (fun ch => (rb.contentsCh ch).take count),
       { rb with readPtr := (rb.readPtr + count) % rb.size,
                 available := rb.available - count }) := by
  obtain ⟨hs, hr, ha, hw⟩ := h
  have hnl : ¬ rb.available < count := not_lt.mpr hc
  unfold pop
  rw [if_neg hnl]
  congr 1
  rw [Prod.mk.injEq]
  constructor
  · apply List.map_congr_left
    intro ch _
    have hstep : ∀ i, i ∈ List.range count →
        rb.buffers ch ((stepPtr rb.size)^[i] rb.readPtr) = rb.sampleAt i ch := by
      intro i _
      rw [stepPtr_iterate hs i rb.readPtr hr]
      rfl
    rw [List.map_congr_left hstep]
    unfold contentsCh
    rw [← List.map_take, List.take_range, Nat.min_eq_left hc]
  · rw [stepPtr_iterate hs count rb.readPtr hr]

theorem wf_pop_state {rb : RingBuffer α} {count : ℕ} (h : rb.wf)
    (hc : count ≤ rb.available) :
    ({ rb with readPtr := (rb.readPtr + count) % rb.size,
               available := rb.available - count } : RingBuffer α).wf := by
  obtain ⟨hs, hr, ha, hw⟩ := h
  unfold wf
  dsimp only
  refine ⟨hs, Nat.mod_lt _ hs, by omega, ?_⟩
  rw [hw, Nat.mod_add_mod]
  congr 1
  omega

theorem wf_push {rb : RingBuffer α} (arr : List α) (ic : ℕ) (z : α)
    (h : rb.wf) : (rb.push arr ic z).wf := by
  rw [push_eq_pushFrames]
  exact wf_pushFrames ic _ h

theorem wf_applyOp {rb : RingBuffer α} (z : α) (op : RBOp α) (h : rb.wf) :
    (applyOp z rb op).wf := by
  cases op with
  | push arr ic => exact wf_push arr ic z h
  | pop count =>
    simp only [applyOp]
    rcases Nat.lt_or_ge rb.available count with hlt | hge
    · rw [pop_eq_none hlt]
      exact h
    · rw [pop_eq_some h hge]
      exact wf_pop_state h hge
  | clear => exact wf_clear h

theorem wf_applyOps {rb : RingBuffer α} (z : α) (ops : List (RBOp α))
    (h : rb.wf) : (applyOps z rb ops).wf := by
  induction ops generalizing rb with
  | nil => exact h
  | cons op ops ih => exact ih (wf_applyOp z op h)

end RingBuffer

open RingBuffer in
/-- Folding push over a sequence of arrays is pushing all their frames. -/
theorem pushSeq_eq_pushFrames (z : α) (ic : ℕ) (rb : RingBuffer α)
    (arrs : List (List α)) :
    pushSeq z ic rb arrs = pushFrames rb ic (framesSeq z ic arrs) := by
  induction arrs generalizing rb with
  | nil => rfl
  | cons a t ih =>
    calc pushSeq z ic rb (a :: t)
        = pushSeq z ic (rb.push a ic z) t := rfl
      _ = pushFrames (rb.push a ic z) ic (framesSeq z ic t) := ih _
      _ = pushFrames (pushFrames rb ic (framesOf a ic z)) ic
            (framesSeq z ic t) := by rw [push_eq_pushFrames]
      _ = pushFrames rb ic (framesOf a ic z ++ framesSeq z ic t) :=
            (pushFrames_append rb ic _ _).symm
      _ = pushFrames rb ic (framesSeq z ic (a :: t)) := by
            simp [framesSeq]

theorem firstFreeFrom_spec (ids : List ℕ) (fuel : ℕ) :
    ∀ cand, (∃ k, cand ≤ k ∧ k < cand + fuel ∧ k ∉ ids) →
      firstFreeFrom ids fuel cand ∉ ids ∧
      cand ≤ firstFreeFrom ids fuel cand ∧
      ∀ j, cand ≤ j → j < firstFreeFrom ids fuel cand → j ∈ ids := by
  induction fuel with
  | zero =>
    intro cand h
    obtain ⟨k, h1, h2, _⟩ := h
    omega
  | succ fuel ih =>
    intro cand h
    by_cases hc : cand ∈ ids
    · obtain ⟨k, h1, h2, h3⟩ := h
      have hk : cand + 1 ≤ k := by
        rcases Nat.eq_or_lt_of_le h1 with heq | hlt
        · exact absurd (heq ▸ hc) h3
        · omega
      obtain ⟨r1, r2, r3⟩ := ih (cand + 1) ⟨k, hk, by omega, h3⟩
      simp only [firstFreeFrom, if_pos hc]
      refine ⟨r1, by omega, ?_⟩
      intro j hj1 hj2
      rcases Nat.eq_or_lt_of_le hj1 with heq | hlt
      · exact heq ▸ hc
      · exact r3 j hlt hj2
    · simp only [firstFreeFrom, if_neg hc]
      exact ⟨hc, le_refl _, fun j hj1 hj2 => absurd hj2 (by omega)⟩

theorem exists_small_free (ids : List ℕ) :
    ∃ k, 1 ≤ k ∧ k < 1 + (ids.length + 1) ∧ k ∉ ids := by
  by_contra hcon
  push_neg at hcon
  have hsub : Finset.Icc 1 (ids.length + 1) ⊆ ids.toFinset := by
    intro k hk
    rw [Finset.mem_Icc] at hk
    exact List.mem_toFinset.mpr (hcon k hk.1 (by omega))
  have h1 := Finset.card_le_card hsub
  rw [Nat.card_Icc] at h1
  have h2 := ids.toFinset_card_le
  omega

theorem getAvailableId_spec (ids : List ℕ) :
    getAvailableId ids ∉ ids ∧ 1 ≤ getAvailableId ids ∧
      ∀ j, 1 ≤ j → j < getAvailableId ids → j ∈ ids :=
  firstFreeFrom_spec ids (ids.length + 1) 1 (exists_small_free ids)

theorem mem_eraseP_of_not {β : Type} {p : β → Bool} {a : β} {l : List β}
    (ha : a ∈ l) (hp : p a = false) : a ∈ l.eraseP p :=
  (List.mem_eraseP_of_neg (by simp [hp])).mpr ha

theorem outIds_eraseP (l : List OutputData) (i : ℕ) :
    (l.eraseP (fun o => o.id == i)).map (fun o => o.id)
      = (l.map (fun o => o.id)).eraseP (fun x => x == i) := by
  induction l with
  | nil => rfl
  | cons b t ih =>
    by_cases hb : (b.id == i) = true
    · simp [List.eraseP_cons, hb]
    · simp [List.eraseP_cons, hb, ih]

theorem not_mem_eraseP_beq {l : List ℕ} (i : ℕ) (hnd : l.Nodup) :
    i ∉ l.eraseP (fun x => x == i) := by
  induction l with
  | nil => simp
  | cons b t ih =>
    rw [List.nodup_cons] at hnd
    cases hbool : (b == i) with
    | true =>
      simp only [List.eraseP_cons, hbool, cond_true]
      have hbi : b = i := by simpa using hbool
      exact hbi ▸ hnd.1
    | false =>
      simp only [List.eraseP_cons, hbool, cond_false]
      intro hmem
      rcases List.mem_cons.mp hmem with heq | hmem2
      · exact absurd heq.symm (by simpa using hbool)
      · exact ih hnd.2 hmem2

theorem sortOutputsById_perm (l : List OutputData) :
    List.Perm (sortOutputsById l) l :=
  List.perm_insertionSort _ l

theorem outIds_addOutput (s : StoreState) :
    List.Perm (outIds (Store.addOutput s).1)
      (outIds s ++ [getAvailableId (outIds s)]) := by
  unfold Store.addOutput outIds
  dsimp only
  have hperm := (sortOutputsById_perm
    (s.outputs ++ [{ id := getAvailableId (s.outputs.map (fun o => o.id)),
                     volume := 1, isMuted := false }])).map (fun o => o.id)
  simpa using hperm

theorem addOutput_snd (s : StoreState) :
    (Store.addOutput s).2 = getAvailableId (outIds s) := rfl

theorem any_beq_of_mem {s : StoreState} {i : ℕ} (h : ∃ o ∈ s.outputs, o.id = i) :
    s.outputs.any (fun o => o.id == i) = true := by
  rw [List.any_eq_true]
  obtain ⟨o, ho, hoi⟩ := h
  exact ⟨o, ho, by simpa using hoi⟩

theorem outIds_removeOutput_of_mem {s : StoreState} {i : ℕ}
    (h : ∃ o ∈ s.outputs, o.id = i) :
    outIds (Store.removeOutput s i) = (outIds s).eraseP (fun x => x == i) := by
  unfold Store.removeOutput
  rw [if_pos (any_beq_of_mem h)]
  unfold outIds
  dsimp only
  exact outIds_eraseP s.outputs i

theorem nodup_outIds_applyOutOp (s : StoreState) (op : OutOp)
    (h : (outIds s).Nodup) : (outIds (applyOutOp s op)).Nodup := by
  cases op with
  | add =>
    simp only [applyOutOp]
    rw [(outIds_addOutput s).nodup_iff]
    obtain ⟨g1, _, _⟩ := getAvailableId_spec (outIds s)
    simp [List.nodup_append, h, g1]
  | remove i =>
    simp only [applyOutOp]
    by_cases hmem : ∃ o ∈ s.outputs, o.id = i
    · rw [outIds_removeOutput_of_mem hmem]
      exact h.eraseP _
    · have hnotany : ¬ (s.outputs.any (fun o => o.id == i) = true) := by
        intro hany
        rw [List.any_eq_true] at hany
        obtain ⟨o, ho, hoi⟩ := hany
        exact hmem ⟨o, ho, by simpa using hoi⟩
      unfold Store.removeOutput
      rw [if_neg hnotany]
      exact h

theorem nodup_outIds_applyOutOps (s : StoreState) (ops : List OutOp)
    (h : (outIds s).Nodup) : (outIds (applyOutOps s ops)).Nodup := by
  induction ops generalizing s with
  | nil => exact h
  | cons op ops ih => exact ih _ (nodup_outIds_applyOutOp s op h)

theorem removeOutput_frees_id (s : StoreState) (i : ℕ)
    (hnd : (outIds s).Nodup) (hin : i ∈ outIds s) :
    i ∉ outIds (Store.removeOutput s i) := by
  have hmem : ∃ o ∈ s.outputs, o.id = i := by
    rw [outIds, List.mem_map] at hin
    obtain ⟨o, ho, hoi⟩ := hin
    exact ⟨o, ho, hoi⟩
  rw [outIds_removeOutput_of_mem hmem]
  exact not_mem_eraseP_beq i hnd

theorem addOutput_allocates (s : StoreState) (i : ℕ) (h1 : 1 ≤ i)
    (h2 : i ∉ outIds s) (h3 : ∀ j, 1 ≤ j → j < i → j ∈ outIds s) :
    (Store.addOutput s).2 = i := by
  rw [addOutput_snd]
  obtain ⟨g1, g2, g3⟩ := getAvailableId_spec (outIds s)
  by_contra hne
  rcases Nat.lt_or_ge (getAvailableId (outIds s)) i with hlt | hge
  · exact g1 (h3 _ g2 hlt)
  · exact h2 (g3 i h1 (by omega))

/-- C1 counterexample: in `scheduleAudio` (the ring-buffer scheduler), an
underrun at `now = 10`, cursor `9`, `targetBufferSeconds = 0.1` is
corrected to `now + 0.1`, which differs from the claimed
`now + targetBufferSeconds + 0.05 = 10.15`. -/
theorem C1_cex :
    (scheduleStep (userBufferSec (1/10)) 10 9 (1/10)).1 = 10 + 1/10
    ∧ ((10 + 1/10 : ℚ) ≠ 10 + 1/10 + 1/20) := by
  constructor
  · norm_num [scheduleStep, userBufferSec]
  · norm_num

/-- C1 (amended): on underrun the ring-buffer scheduler `scheduleAudio`
corrects the cursor to exactly `now + targetBufferSeconds` (no 50 ms
margin); the margin appears only in the legacy `processDirectAudio`
scheduling path, which corrects to `now + targetBufferSeconds + 0.05`. -/
theorem C1_underrun_correction (ub now next buf d : ℚ) (h : next < now) :
    (scheduleStep ub now next buf).1 = now + ub
    ∧ (directDriftStep now next buf d).1 = now + userBufferSec buf + 1/20 := by
  constructor
  · unfold scheduleStep
    dsimp only
    rw [if_pos h]
  · have hub : (1:ℚ)/20 ≤ userBufferSec buf := le_max_right _ _
    have hcond : ¬ (now + userBufferSec buf + 1/20
        > now + (userBufferSec buf * 3 + 1/5)) := by
      simp only [gt_iff_lt, not_lt]
      linarith
    unfold directDriftStep
    dsimp only
    rw [if_pos h, if_neg hcond]

theorem C1_underrun_correction_witness :
    (scheduleStep (1/10) 10 9 (1/10)).1 = 10 + 1/10
    ∧ (directDriftStep 10 9 (1/10) 0).1 = 10 + userBufferSec (1/10) + 1/20 :=
  C1_underrun_correction (1/10) 10 9 (1/10) 0 (by norm_num)

/-- C2 counterexample: with `nextAudioTime = now + 1.0` and
`targetBufferSeconds = 0.1` the reset threshold `0.5` is exceeded, yet
the ring-buffer scheduler `scheduleAudio` schedules the chunk at the
uncorrected cursor `1.0`, not at `now + 0.1`: it has no overrun branch. -/
theorem C2_cex :
    (0 + (userBufferSec (1/10) * 3 + 1/5) < (1:ℚ))
    ∧ (scheduleStep (userBufferSec (1/10)) 0 1 (1/10)).1 = 1
    ∧ ((1:ℚ) ≠ 0 + userBufferSec (1/10)) := by
  refine ⟨by norm_num [userBufferSec], ?_, by norm_num [userBufferSec]⟩
  norm_num [scheduleStep]

/-- C2 (amended): the overrun reset to exactly `now + targetBufferSeconds`
past the threshold `3 × targetBufferSeconds + 0.2` is performed by the
legacy `processDirectAudio` scheduling path; the ring-buffer scheduler
`scheduleAudio` applies no overrun correction and leaves the cursor
unchanged. -/
theorem C2_overrun_reset (now next buf d : ℚ)
    (h : now + (userBufferSec buf * 3 + 1/5) < next) :
    (directDriftStep now next buf d).1 = now + userBufferSec buf
    ∧ (scheduleStep (userBufferSec buf) now next buf).1 = next := by
  have hub : (1:ℚ)/20 ≤ userBufferSec buf := le_max_right _ _
  have hnn : ¬ next < now := by linarith
  constructor
  · unfold directDriftStep
    dsimp only
    rw [if_neg hnn, if_pos h]
  · unfold scheduleStep
    dsimp only
    rw [if_neg hnn]

theorem C2_overrun_reset_witness :
    (directDriftStep 0 1 (1/10) 0).1 = 0 + userBufferSec (1/10)
    ∧ (scheduleStep (userBufferSec (1/10)) 0 1 (1/10)).1 = 1 :=
  C2_overrun_reset 0 1 (1/10) 0 (by norm_num [userBufferSec])

/-- C3 counterexample: a muted, routed input with volume 1 gets target
gain 1 from `updateAllGains` — the spec formula
`routed ? (muted ? 0 : volume) : 0` would give 0: the input's `isMuted`
flag is not consulted by the source. -/
theorem C3_cex :
    hwGainTarget { id := 1, volume := 1, isMuted := true, routing := [1] } 1
      ≠ hwGainTargetSpec { id := 1, volume := 1, isMuted := true, routing := [1] } 1
    ∧ hwGainTarget { id := 1, volume := 1, isMuted := true, routing := [1] } 1 = 1 := by
  constructor
  · norm_num [hwGainTarget, hwGainTargetSpec]
  · norm_num [hwGainTarget]

/-- C3 (amended): after a full gain recomputation the hardware target is
`routed ? volume : 0` — independent of the input's stored muted flag —
so unrouting drives the target to 0 regardless of stored volume; the
direct-path target is `directVolume × routeFlag × muteFlag` exactly as
claimed. -/
theorem C3_gain_targets (inp : InputData) (oid : ℕ) (s : StoreState) :
    (oid ∉ inp.routing → hwGainTarget inp oid = 0)
    ∧ (oid ∈ inp.routing → hwGainTarget inp oid = inp.volume)
    ∧ (∀ m : Bool, hwGainTarget { inp with isMuted := m } oid = hwGainTarget inp oid)
    ∧ (s.directMuted = true → directGainTarget s oid = 0)
    ∧ (oid ∉ s.directRoutingSet → directGainTarget s oid = 0)
    ∧ (oid ∈ s.directRoutingSet → s.directMuted = false →
        directGainTarget s oid = s.directGain) := by
  refine ⟨fun h => ?_, fun h => ?_, fun m => ?_, fun h => ?_, fun h => ?_,
    fun h1 h2 => ?_⟩
  · simp [hwGainTarget, h]
  · simp [hwGainTarget, h]
  · simp [hwGainTarget]
  · simp [directGainTarget, h]
  · simp [directGainTarget, h]
  · simp [directGainTarget, h1, h2]

theorem C3_gain_targets_witness :
    hwGainTarget { id := 1, volume := 1/2, isMuted := true, routing := [1] } 1
      = 1/2 :=
  (C3_gain_targets { id := 1, volume := 1/2, isMuted := true, routing := [1] } 1
    { inputs := [], outputs := [], directGain := 1, directMuted := false,
      directRoutingSet := ∅, directBuffer := 1/10 }).2.1 (by decide)

/-- C10: each underrun correction in `scheduleAudio` also mutates the
operator configuration: while `store.data.directBuffer` is below 0.5 it
is incremented by 0.001; at or above 0.5 it stays put, and the
non-underrun path never modifies it. -/
theorem C10_underrun_mutates_config (ub now next buf : ℚ) :
    (next < now → buf < 1/2 →
        (scheduleStep ub now next buf).2.2 = buf + 1/1000)
    ∧ (next < now → ¬ buf < 1/2 → (scheduleStep ub now next buf).2.2 = buf)
    ∧ (¬ next < now → (scheduleStep ub now next buf).2.2 = buf) := by
  refine ⟨fun h1 h2 => ?_, fun h1 h2 => ?_, fun h1 => ?_⟩
  · unfold scheduleStep
    dsimp only
    rw [if_pos h1, if_pos h2]
  · unfold scheduleStep
    dsimp only
    rw [if_pos h1, if_neg h2]
  · unfold scheduleStep
    dsimp only
    rw [if_neg h1]

theorem C10_underrun_mutates_config_witness :
    (scheduleStep 1 10 9 (1/10)).2.2 = 1/10 + 1/1000 :=
  (C10_underrun_mutates_config 1 10 9 (1/10)).1 (by norm_num) (by norm_num)

/-- C8: removing a live Output deletes its id from the direct-routing
set and from every input's routing list, and the operation preserves the
invariant that every routed-to id belongs to a live Output. -/
theorem C8_remove_output_cascade (s : StoreState) (i : ℕ)
    (hlive : ∃ o ∈ s.outputs, o.id = i) :
    (i ∉ (Store.removeOutput s i).directRoutingSet
      ∧ ∀ inp ∈ (Store.removeOutput s i).inputs, i ∉ inp.routing)
    ∧ (routeTargetsLive s → routeTargetsLive (Store.removeOutput s i)) := by
  have hany := any_beq_of_mem hlive
  unfold Store.removeOutput
  rw [if_pos hany]
  refine ⟨⟨?_, ?_⟩, ?_⟩
  · exact Finset.not_mem_erase i _
  · intro inp hinp
    have hinp2 : inp ∈ s.inputs.map (fun inp =>
        { inp with routing := inp.routing.filter (fun r => r != i) }) := hinp
    rw [List.mem_map] at hinp2
    obtain ⟨inp0, _, rfl⟩ := hinp2
    intro hmem
    have hmem2 : i ∈ inp0.routing.filter (fun r => r != i) := hmem
    rw [List.mem_filter] at hmem2
    simpa using hmem2.2
  · rintro ⟨hd, hi⟩
    constructor
    · intro j hj
      have hj2 : j ∈ s.directRoutingSet.erase i := hj
      rw [Finset.mem_erase] at hj2
      obtain ⟨o, ho, hoj⟩ := hd j hj2.2
      refine ⟨o, ?_, hoj⟩
      show o ∈ s.outputs.eraseP (fun o => o.id == i)
      exact mem_eraseP_of_not ho (by simp [hoj, hj2.1])
    · intro inp hinp j hj
      have hinp2 : inp ∈ s.inputs.map (fun inp =>
          { inp with routing := inp.routing.filter (fun r => r != i) }) := hinp
      rw [List.mem_map] at hinp2
      obtain ⟨inp0, hinp0, rfl⟩ := hinp2
      have hj2 : j ∈ inp0.routing.filter (fun r => r != i) := hj
      rw [List.mem_filter] at hj2
      obtain ⟨o, ho, hoj⟩ := hi inp0 hinp0 j hj2.1
      have hji : j ≠ i := by simpa using hj2.2
      refine ⟨o, ?_, hoj⟩
      show o ∈ s.outputs.eraseP (fun o => o.id == i)
      exact mem_eraseP_of_not ho (by simp [hoj, hji])

theorem C8_remove_output_cascade_witness :
    2 ∉ (Store.removeOutput
        { inputs := [{ id := 1, volume := 1, isMuted := false, routing := [2, 3] }],
          outputs := [{ id := 2, volume := 1, isMuted := false },
                      { id := 3, volume := 1, isMuted := false }],
          directGain := 1, directMuted := false,
          directRoutingSet := {2, 3}, directBuffer := 1/10 } 2).directRoutingSet :=
  (C8_remove_output_cascade
    { inputs := [{ id := 1, volume := 1, isMuted := false, routing := [2, 3] }],
      outputs := [{ id := 2, volume := 1, isMuted := false },
                  { id := 3, volume := 1, isMuted := false }],
      directGain := 1, directMuted := false,
      directRoutingSet := {2, 3}, directBuffer := 1/10 } 2
    ⟨{ id := 2, volume := 1, isMuted := false }, List.mem_cons_self _ _, rfl⟩).1.1

/-- C9: `getAvailableId` returns the smallest positive integer not in
use; live output ids stay pairwise distinct under every sequence of
`addOutput`/`removeOutput`; removing a live Output frees its id; and
`addOutput` hands a freed id back out as soon as it is the smallest
available one. -/
theorem C9_id_allocation :
    (∀ ids : List ℕ, getAvailableId ids ∉ ids ∧ 1 ≤ getAvailableId ids ∧
        ∀ j, 1 ≤ j → j < getAvailableId ids → j ∈ ids)
    ∧ (∀ (s : StoreState) (ops : List OutOp), (outIds s).Nodup →
        (outIds (applyOutOps s ops)).Nodup)
    ∧ (∀ (s : StoreState) (i : ℕ), (outIds s).Nodup → i ∈ outIds s →
        i ∉ outIds (Store.removeOutput s i))
    ∧ (∀ (s : StoreState) (i : ℕ), 1 ≤ i → i ∉ outIds s →
        (∀ j, 1 ≤ j → j < i → j ∈ outIds s) → (Store.addOutput s).2 = i) :=
  ⟨getAvailableId_spec, nodup_outIds_applyOutOps, removeOutput_frees_id,
    addOutput_allocates⟩

theorem C9_id_allocation_witness :
    getAvailableId [1, 2] = 3
    ∧ (Store.addOutput (Store.removeOutput
        { inputs := [], outputs := [{ id := 1, volume := 1, isMuted := false },
            { id := 2, volume := 1, isMuted := false },
            { id := 3, volume := 1, isMuted := false }],
          directGain := 1, directMuted := false, directRoutingSet := ∅,
          directBuffer := 1/10 } 2)).2 = 2 := by
  constructor
  · decide
  · apply C9_id_allocation.2.2.2
    · decide
    · decide
    · intro j h1 h2
      have hj : j = 1 := by omega
      subst hj
      decide

open RingBuffer in
/-- C4: starting from an empty well-formed ring buffer, pushing any
sequence of interleaved arrays whose total frame count fits the capacity
(so no overwrite occurs) and then popping that total count returns
exactly the pushed per-channel sample values in push (FIFO) order. -/
theorem C4_fifo_roundtrip {α : Type} (z : α) (rb : RingBuffer α)
    (arrs : List (List α)) (hwf : rb.wf) (h0 : rb.available = 0)
    (hfit : (framesSeq z rb.channels arrs).length ≤ rb.size) :
    ((pushSeq z rb.channels rb arrs).pop
        (framesSeq z rb.channels arrs).length).map Prod.fst
      = some ((List.range rb.channels).map
          (fun ch => (framesSeq z rb.channels arrs).map (fun f => f ch))) := by
  have hwf2 : (pushSeq z rb.channels rb arrs).wf := by
    rw [pushSeq_eq_pushFrames]
    exact wf_pushFrames _ _ hwf
  have havail : (pushSeq z rb.channels rb arrs).available
      = (framesSeq z rb.channels arrs).length := by
    rw [pushSeq_eq_pushFrames, available_pushFrames _ _ hwf.2.2.1, h0]
    omega
  have hpop := pop_eq_some hwf2 (le_of_eq havail.symm)
  rw [hpop, Option.map_some']
  congr 1
  have hch : (pushSeq z rb.channels rb arrs).channels = rb.channels := by
    rw [pushSeq_eq_pushFrames, pushFrames_channels]
  rw [hch]
  apply List.map_congr_left
  intro ch hch2
  have hchlt : ch < rb.channels := List.mem_range.mp hch2
  have hcontents : (pushSeq z rb.channels rb arrs).contentsCh ch
      = (framesSeq z rb.channels arrs).map (fun f => f ch) := by
    rw [pushSeq_eq_pushFrames,
      contentsCh_pushFrames _ hwf (by simpa [min_self] using hchlt)]
    have hc0 : rb.contentsCh ch = [] := by simp [contentsCh, h0]
    rw [hc0, List.nil_append, lastN_of_le (by simpa using hfit)]
  rw [hcontents, List.take_of_length_le (by simp)]

open RingBuffer in
theorem C4_fifo_roundtrip_witness :
    ((pushSeq (0:ℤ) (RingBuffer.new ℤ 4 2 0).channels (RingBuffer.new ℤ 4 2 0)
        [[1,2,3,4],[5,6]]).pop
        (framesSeq (0:ℤ) (RingBuffer.new ℤ 4 2 0).channels
          [[1,2,3,4],[5,6]]).length).map Prod.fst
      = some [[1,3,5],[2,4,6]] := by
  rw [C4_fifo_roundtrip (0:ℤ) (RingBuffer.new ℤ 4 2 0) [[1,2,3,4],[5,6]]
    (wf_new ℤ 4 2 0 (by decide)) rfl (by decide)]
  decide

open RingBuffer in
/-- C5: over every sequence of push/pop/clear operations on a well-formed
ring buffer, `availableFrames` stays within 0..capacity (the lower bound
is inherent in ℕ); and a single push carrying at least `capacity` frames
never blocks, fills the buffer exactly, and leaves precisely the most
recent `capacity` frames stored (oldest samples overwritten). -/
theorem C5_invariant_and_overflow {α : Type} (z : α) :
    (∀ (rb : RingBuffer α) (ops : List (RBOp α)), rb.wf →
        (applyOps z rb ops).available ≤ (applyOps z rb ops).size)
    ∧ (∀ (rb : RingBuffer α) (arr : List α) (ch : ℕ), rb.wf →
        ch < rb.channels →
        rb.size ≤ (framesOf arr rb.channels z).length →
        (rb.push arr rb.channels z).contentsCh ch
            = lastN rb.size ((framesOf arr rb.channels z).map (fun f => f ch))
          ∧ (rb.push arr rb.channels z).available = rb.size) := by
  constructor
  · intro rb ops h
    exact (wf_applyOps z ops h).2.2.1
  · intro rb arr ch h hch hlen
    constructor
    · rw [push_eq_pushFrames,
        contentsCh_pushFrames _ h (by simpa [min_self] using hch)]
      exact lastN_append_of_le _ (by simpa using hlen)
    · rw [push_eq_pushFrames, available_pushFrames _ _ h.2.2.1]
      omega

open RingBuffer in
theorem C5_invariant_and_overflow_witness :
    ((applyOps (0:ℤ) (RingBuffer.new ℤ 2 1 0)
        [RBOp.push [9,8,7] 1, RBOp.pop 1, RBOp.clear]).available
      ≤ (applyOps (0:ℤ) (RingBuffer.new ℤ 2 1 0)
        [RBOp.push [9,8,7] 1, RBOp.pop 1, RBOp.clear]).size)
    ∧ ((RingBuffer.new ℤ 2 1 0).push [1,2,3]
          (RingBuffer.new ℤ 2 1 0).channels 0).contentsCh 0
        = lastN (RingBuffer.new ℤ 2 1 0).size
            ((framesOf [1,2,3] (RingBuffer.new ℤ 2 1 0).channels 0).map
              (fun f => f 0)) := by
  constructor
  · exact (C5_invariant_and_overflow (0:ℤ)).1 _ _ (wf_new ℤ 2 1 0 (by decide))
  · exact ((C5_invariant_and_overflow (0:ℤ)).2 _ [1,2,3] 0
      (wf_new ℤ 2 1 0 (by decide)) (by decide) (by decide)).1

open RingBuffer in
/-- C6: `pop` on a well-formed buffer fails (returning `false`, modelled
as `none`, with nothing copied and no state change) when fewer than
`count` frames are available; otherwise it returns the first `count`
stored frames per channel from the read cursor on, advances the read
cursor by `count` modulo capacity, and decrements `availableFrames` by
`count`, leaving the write cursor and storage untouched. -/
theorem C6_pop_semantics {α : Type} (rb : RingBuffer α) (count : ℕ)
    (h : rb.wf) :
    (rb.available < count → rb.pop count = none)
    ∧ (count ≤ rb.available → rb.pop count = some
        ((List.range rb.channels).map (fun ch => (rb.contentsCh ch).take count),
         { rb with readPtr := (rb.readPtr + count) % rb.size,
                   available := rb.available - count })) :=
  ⟨fun hlt => pop_eq_none hlt, fun hc => pop_eq_some h hc⟩

open RingBuffer in
theorem C6_pop_semantics_witness :
    ((RingBuffer.new ℤ 3 1 0).push [7,8] 1 0).pop 5 = none
    ∧ (((RingBuffer.new ℤ 3 1 0).push [7,8] 1 0).pop 1).map Prod.fst
        = some [[7]] := by
  have hwf : ((RingBuffer.new ℤ 3 1 0).push [7,8] 1 0).wf :=
    wf_push [7,8] 1 0 (wf_new ℤ 3 1 0 (by decide))
  constructor
  · exact (C6_pop_semantics _ 5 hwf).1 (by decide)
  · rw [(C6_pop_semantics _ 1 hwf).2 (by decide), Option.map_some']
    decide

/-- C7: once the awaiting-header decoder has accumulated at least 8
bytes (within the 1024-byte cap), a "UXD1" magic moves it to the
streaming state, publishes the little-endian 32-bit sample rate from
bytes 4..7, and hands every accumulated byte beyond the 8-byte header
straight to the streaming path (which keeps whole 8-byte frames); any
other magic destroys the connection, decodes no audio, and stays out of
the streaming state. -/
theorem C7_handshake (st : ServerState) (buffer : List ℕ)
    (hawait : st.isHeaderReceived = false)
    (hempty : st.streamed = [])
    (h8 : 8 ≤ (st.headerBuffer ++ buffer).length)
    (hcap : (st.headerBuffer ++ buffer).length ≤ 1024) :
    ((st.headerBuffer ++ buffer).take 4 = magicUXD1 →
        (handleHandshake st buffer).isHeaderReceived = true
        ∧ (handleHandshake st buffer).sampleRate
            = readUInt32LE (st.headerBuffer ++ buffer) 4
        ∧ (handleHandshake st buffer).streamed
            = aligned8 ((st.headerBuffer ++ buffer).drop 8)
        ∧ (handleHandshake st buffer).destroyed = st.destroyed)
    ∧ ((st.headerBuffer ++ buffer).take 4 ≠ magicUXD1 →
        (handleHandshake st buffer).destroyed = true
        ∧ (handleHandshake st buffer).streamed = []
        ∧ (handleHandshake st buffer).isHeaderReceived = false) := by
  have htrim : ¬ 1024 < (st.headerBuffer ++ buffer).length := not_lt.mpr hcap
  constructor
  · intro hmagic
    unfold handleHandshake
    dsimp only
    rw [if_neg htrim, if_pos h8, if_pos hmagic]
    by_cases hrem : 0 < ((st.headerBuffer ++ buffer).drop 8).length
    · rw [if_pos hrem]
      unfold handleAudioData
      dsimp only
      by_cases hz : (aligned8 ((st.headerBuffer ++ buffer).drop 8)).length = 0
      · rw [if_pos hz]
        have hznil : aligned8 ((st.headerBuffer ++ buffer).drop 8) = [] :=
          List.length_eq_zero.mp hz
        exact ⟨rfl, rfl, by rw [hznil]; exact hempty, rfl⟩
      · rw [if_neg hz]
        exact ⟨rfl, rfl, by rw [hempty]; exact (List.nil_append _), rfl⟩
    · rw [if_neg hrem]
      have hdnil : (st.headerBuffer ++ buffer).drop 8 = [] :=
        List.length_eq_zero.mp (by omega)
      refine ⟨rfl, rfl, ?_, rfl⟩
      rw [hdnil]
      exact hempty
  · intro hmagic
    unfold handleHandshake
    dsimp only
    rw [if_neg htrim, if_pos h8, if_neg hmagic]
    exact ⟨rfl, hempty, hawait⟩

theorem C7_handshake_witness :
    (handleHandshake connInit [85, 88, 68, 49, 128, 187, 0, 0]).isHeaderReceived
        = true
    ∧ (handleHandshake connInit [85, 88, 68, 49, 128, 187, 0, 0]).sampleRate
        = 48000 := by
  have h := (C7_handshake connInit [85, 88, 68, 49, 128, 187, 0, 0]
    rfl rfl (by decide) (by decide)).1 (by decide)
  refine ⟨h.1, ?_⟩
  rw [h.2.1]
  decide

end UXAR
